import Mathlib

/-!
Verification of the combinatorial template expander in `preconfig.py`
(nedelec/preconfig).  The program reads a template character stream,
isolates doubly-bracketed code blocks (`get_block`), evaluates each block
with Python's `eval` (`try_assignment` / `evaluate`), forks recursively on
multi-valued results (`process`), pre-expands sequence-valued seed entries
(`pop_sequence` / `expand_values`) and emits one file per completed branch
(`make_file` / `parse` / `main`).

Embedding choices:
  * text is `List Char` throughout (the source streams characters one at a
    time; file positions/seeks become value-passing of the remaining
    stream, which is exactly the tell/seek discipline of the source);
  * Python `eval` is the language interpreter, external to this repository,
    so it is a parameter `EvalFn : List Char → Ctx → Option Val` (`none`
    models a raised exception); everything that the repository itself does
    with the result is modelled concretely;
  * Python values appearing in this program are modelled by `Val`:
    scalars (int / str) and one level of sequences (list / tuple / range),
    which covers every value shape the claims are about.  `vals.pop()`
    succeeds exactly on nonempty lists (`popAttempt`); `len(v)` combined
    with `not isinstance(v, str)` succeeds exactly on list / tuple / range
    (`seqLen`);
  * the module-level mutable state (file_index, files_made, the accessory
    output stream `out`, `sys.stderr`, template_name) is a `GState` record
    threaded through all calls; writes to `out` go to `outLog`, writes to
    `sys.stderr` go to `errLog`;
  * recursion in `process` / `expand_values` uses an explicit fuel counter
    so that every definition is structural and computable; the fuel only
    needs to exceed the number of blocks met along one branch, and all
    theorems are stated with ample fuel.
-/

namespace Preconfig

/-- Shorthand: the character data of a string literal. -/
def chars (s : String) : List Char := s.data

/-- Python scalar values appearing in this program: integers and strings. -/
inductive Scal where
  | int : Int → Scal
  | sstr : List Char → Scal
deriving DecidableEq

/-- Python values flowing through the expander: a scalar, or one of the
sequence shapes the program distinguishes (list, tuple, range). -/
inductive Val where
  | scal : Scal → Val
  | vlist : List Scal → Val
  | vtuple : List Scal → Val
  | vrange : Int → Int → Val
deriving DecidableEq

instance : Inhabited Val := ⟨.scal (.int 0)⟩

/-- The evaluation context: Python's `values` dict, an insertion-ordered
mapping from name to value (`dict` iterates in insertion order). -/
abbrev Ctx := List (List Char × Val)

/-- First-match lookup in the context. -/
def ctxGet : Ctx → List Char → Option Val
  | [], _ => none
  | kv :: rest, k => if kv.1 = k then some kv.2 else ctxGet rest k

/-- `values[key] = v`: update in place if the key exists (keeping its
position), else append at the end — Python dict assignment. -/
def ctxSet : Ctx → List Char → Val → Ctx
  | [], k, v => [(k, v)]
  | kv :: rest, k, v => if kv.1 = k then (k, v) :: rest else kv :: ctxSet rest k v

/-- Python `str()` of an integer. -/
def intChars (n : Int) : List Char := (toString n).data

/-- Python `str()` of a scalar. -/
def scalStr : Scal → List Char
  | .int n => intChars n
  | .sstr s => s

/-- Python `repr()` of a scalar (element rendering inside containers).
String escaping is not modelled; the theorems only use strings without
quotes or escapes. -/
def scalRepr : Scal → List Char
  | .int n => intChars n
  | .sstr s => '\'' :: (s ++ ['\''])

/-- Join rendered elements with `", "` as Python container printing does. -/
def commaJoin : List (List Char) → List Char
  | [] => []
  | [x] => x
  | x :: xs => x ++ chars ", " ++ commaJoin xs

/-- Python `str()` of a value: `str` on scalars, `[a, b]` for lists,
`(a, b)` for tuples (with the `(a,)` one-element form), `range(a, b)`. -/
def pyStr : Val → List Char
  | .scal s => scalStr s
  | .vlist vs => '[' :: (commaJoin (vs.map scalRepr) ++ [']'])
  | .vtuple [v] => '(' :: (scalRepr v ++ [',', ')'])
  | .vtuple vs => '(' :: (commaJoin (vs.map scalRepr) ++ [')'])
  | .vrange a b => chars "range(" ++ intChars a ++ chars ", " ++ intChars b ++ [')']

/-- The test made by `pop_sequence`: `len(v)` succeeds and
`not isinstance(v, str)` — true exactly for list, tuple and range
(`len` raises on ints, and strings are excluded explicitly). -/
def seqLen : Val → Bool
  | .scal _ => false
  | _ => true

/-- The elements `for v in vals` iterates over for a sequence value. -/
def elemsOf : Val → List Val
  | .scal _ => []
  | .vlist vs => vs.map Val.scal
  | .vtuple vs => vs.map Val.scal
  | .vrange a b => (List.range (b - a).toNat).map (fun k => Val.scal (.int (a + k)))

/-- The `vals.pop()` attempt in `process`: only a `list` object has a
`pop` method, and popping an empty list raises `IndexError`; both failure
modes are caught by `except (AttributeError, IndexError)`.  Success yields
the removed last element together with the remaining (iterated) prefix. -/
def popAttempt : Val → Option (List Scal × Scal)
  | .vlist vs =>
    match vs.getLast? with
    | some last => some (vs.dropLast, last)
    | none => none
  | _ => none

/-- Module state: the global file index, the files made (index, text, and
the `values` dict passed to `make_file`), the accessory output stream
`out`, the error stream `sys.stderr`, and `template_name`. -/
structure GState where
  fileIndex : Nat
  emitted : List (Nat × List Char × Ctx)
  outLog : List (List Char)
  errLog : List (List Char)
  templateName : List Char
  fuelOut : Bool
deriving DecidableEq

/-- The pristine module state at interpreter start. -/
def initGS : GState :=
  { fileIndex := 0, emitted := [], outLog := [], errLog := [],
    templateName := [], fuelOut := false }

/-- The key of the implicit counter variable `n`. -/
def kN : List Char := chars "n"

/-- `make_file(text, values)`: emit one file under the next sequential
name, advance the global index, and set `values['n']` to the
post-increment index.  The emitted record keeps the `values` dict as the
source logs it (before the `n` update). -/
def make_file (text : List Char) (values : Ctx) (gs : GState) : Ctx × GState :=
  let idx := gs.fileIndex
  let gs2 := { gs with fileIndex := idx + 1, emitted := gs.emitted ++ [(idx, text, values)] }
  (ctxSet values kN (.scal (.int ((idx : Int) + 1))), gs2)

/-- `pop_sequence(dic)`: scan the dict in insertion order for the first
entry whose value has a length and is not a string, remove it and return
it; `(none, dic)` when there is none. -/
def pop_sequence : Ctx → Option (List Char × Val) × Ctx
  | [] => (none, [])
  | kv :: rest =>
    if seqLen kv.2 then (some kv, rest)
    else
      let r := pop_sequence rest
      (r.1, kv :: r.2)

/-- Python's `cmd.partition('=')` restricted to what `try_assignment`
uses: `some (before, after)` split at the first `'='`, `none` when the
character does not occur. -/
def partitionEq : List Char → Option (List Char × List Char)
  | [] => none
  | c :: t =>
    if c = '=' then some ([], t)
    else
      match partitionEq t with
      | some ab => some (c :: ab.1, ab.2)
      | none => none

/-- Python whitespace for `str.strip()`. -/
def isSpc (c : Char) : Bool := c = ' ' || c = '\t' || c = '\n' || c = '\r'

/-- Python `str.strip()`. -/
def strip (l : List Char) : List Char :=
  ((l.dropWhile isSpc).reverse.dropWhile isSpc).reverse

/-- `try_assignment(cmd)`: split on the first `'='`; when both sides are
non-empty the stripped left side is the target name and the stripped right
side the expression, otherwise no target and the whole content is the
expression. -/
def try_assignment (cmd : List Char) : List Char × List Char :=
  match partitionEq cmd with
  | some kv => if kv.1 ≠ [] ∧ kv.2 ≠ [] then (strip kv.1, strip kv.2) else ([], cmd)
  | none => ([], cmd)

/-- What Python's `eval(cmd, libraries, values)` returns: a parameter of
the model, since `eval` is the Python interpreter, not repository code.
`none` models a raised exception. -/
abbrev EvalFn := List Char → Ctx → Option Val

/-- First line `evaluate` writes to `sys.stderr` on failure (the ANSI
colour codes around it carry no information and are not recorded). -/
def errLine1 (name : List Char) : List Char :=
  chars "Error in file `" ++ name ++ chars "`:\n"

/-- Second line `evaluate` writes to `sys.stderr` on failure (the final
`str(e)` exception text is interpreter-dependent and not recorded). -/
def errLine2 (cmd : List Char) : List Char :=
  chars "    Could not evaluate [[" ++ cmd ++ chars "]]\n"

/-- `evaluate(cmd, values)`: return `eval`'s result, or on exception
report to `sys.stderr` (template name, then expression text) and return
the unevaluated expression string itself. -/
def evaluate (ev : EvalFn) (cmd : List Char) (values : Ctx) (gs : GState) : Val × GState :=
  match ev cmd values with
  | some v => (v, gs)
  | none =>
    (.scal (.sstr cmd),
     { gs with errLog := gs.errLog ++ [errLine1 gs.templateName, errLine2 cmd] })

/-- Message `get_block` writes to `out` on a close marker below depth
zero (source spelling kept). -/
def unbalMsg : List Char := chars "Error: unbalanced brackets\n"

/-- Message `get_block` writes to `out` on end-of-file inside a block
(source spelling kept). -/
def eofMsg : List Char := chars "Error: EOF encoutered within bracketted block\n"

/-- The scanning loop of `get_block`: `pc` is the previously read
character, `dep1` the outer bracket depth, `dep2` the in-block flag,
`pre` / `blk` the accumulated literal text and block text, `errs` the
messages written to `out` so far.  Returns
`(pre, blk-with-delimiters-or-empty, eof, errs, remaining-stream)`.
Faithful to the source loop: the character in `pc` when the stream runs
dry is dropped. -/
def get_block_loop (s e : Char) (pc : Char) (dep1 : Int) (dep2 : Bool)
    (pre blk : List Char) (errs : List (List Char)) :
    List Char → List Char × List Char × Bool × List (List Char) × List Char
  | [] => (pre, [], true, errs ++ (if blk ≠ [] then [eofMsg] else []), [])
  | ch :: rest =>
    let dep1a := if ch = s then dep1 + 1 else dep1
    let dep2a := if ch = s && pc = s then true else dep2
    let pre2 := if dep2a then pre else pre ++ [pc]
    let blk2 := if dep2a then blk ++ [pc] else blk
    if ch = e then
      let dep1b := dep1a - 1
      let errs2 := if dep1b < 0 then errs ++ [unbalMsg] else errs
      if pc = e && dep1b = 0 then (pre2, blk2 ++ [ch], false, errs2, rest)
      else get_block_loop s e ch dep1b dep2a pre2 blk2 errs2 rest
    else get_block_loop s e ch dep1a dep2a pre2 blk2 errs rest

/-- `get_block(file, s, e)`: read up to the next doubly-delimited block.
The stream is the remaining character list (`tell`/`seek` become value
passing). -/
def get_block (f : List Char) (s e : Char) :
    List Char × List Char × Bool × List (List Char) × List Char :=
  match f with
  | [] => ([], [], true, [], [])
  | c :: rest => get_block_loop s e c (if c = s then 1 else 0) false [] [] [] rest

/-- `CODE_IN`. -/
def CODE_IN : Char := '['

/-- `CODE_OUT`. -/
def CODE_OUT : Char := ']'

/-- The part of `process` following `evaluate`: the `vals.pop()` attempt,
the fork loop over the non-tail values (each forked branch replays the
stream `f2` left after the block, with all context mutations persisting
into the next sibling), and the non-forking handling of the tail or
scalar value, after which the enclosing read loop continues — `cont` is
that continuation (the recursive `process`). -/
def handle_result (cont : List Char → Ctx → List Char → GState → Ctx × GState)
    (f2 : List Char) (key : List Char) (vals : Val) (output : List Char)
    (values : Ctx) (gs : GState) : Ctx × GState :=
  match popAttempt vals with
  | some il =>
    let step := fun (cg : Ctx × GState) (v : Scal) =>
      if key ≠ [] then cont f2 (ctxSet cg.1 key (.scal v)) output cg.2
      else cont f2 cg.1 (output ++ scalStr v) cg.2
    let r := il.1.foldl step (values, gs)
    if key ≠ [] then cont f2 (ctxSet r.1 key (.scal il.2)) output r.2
    else cont f2 r.1 (output ++ scalStr il.2) r.2
  | none =>
    if key ≠ [] then cont f2 (ctxSet values key vals) output gs
    else cont f2 values (output ++ pyStr vals) gs

/-- `process(ifile, values, text)`: extract the next block, fork on
multi-valued results, emit a file at end of stream.  The first argument
is fuel bounding the number of blocks met along one branch (the source
recursion terminates because every block consumes stream characters);
exhausted fuel sets the `fuelOut` flag and is never reached in any
theorem below. -/
def process (ev : EvalFn) : Nat → List Char → Ctx → List Char → GState → Ctx × GState
  | 0, _, values, _, gs => (values, { gs with fuelOut := true })
  | Nat.succ fuel, f, values, text, gs =>
    match get_block f CODE_IN CODE_OUT with
    | (pre, code, eof, errs, f2) =>
      let gs2 := { gs with outLog := gs.outLog ++ errs }
      let output := text ++ pre
      if eof then make_file output values gs2
      else
        let cmd := ((code.drop 2).dropLast).dropLast
        let ke := try_assignment cmd
        let ve := evaluate ev ke.2 values gs2
        handle_result (fun g c t st => process ev fuel g c t st) f2 ke.1 ve.1 output values ve.2

/-- `expand_values(ifile, values, text)`: recursively scalarize every
sequence-valued entry of the seed context (restoring the multi-value on
the way up), then run `process` on the whole stream.  First fuel bounds
the expansion depth, second is passed to `process`. -/
def expand_values (ev : EvalFn) : Nat → Nat → List Char → Ctx → List Char → GState → Ctx × GState
  | 0, _, _, values, _, gs => (values, { gs with fuelOut := true })
  | Nat.succ fuel, pfuel, f, values, text, gs =>
    match pop_sequence values with
    | (some kv, ctx1) =>
      let step := fun (cg : Ctx × GState) (v : Val) =>
        expand_values ev fuel pfuel f (ctxSet cg.1 kv.1 v) text cg.2
      let r := (elemsOf kv.2).foldl step (ctx1, gs)
      (ctxSet r.1 kv.1 kv.2, r.2)
    | (none, _) => process ev pfuel f values text gs

/-- The `for x in range(repeat)` loop of `parse`: each pass re-opens the
template (a fresh full stream) and threads the shared context and state. -/
def parseRep (ev : EvalFn) (efuel pfuel : Nat) (data : List Char) :
    Nat → Ctx → GState → Ctx × GState
  | 0, values, gs => (values, gs)
  | Nat.succ k, values, gs =>
    let r := expand_values ev efuel pfuel data values [] gs
    parseRep ev efuel pfuel data k r.1 r.2

/-- `parse(iname, values, repeat)`: set `values['n'] = 0`, record the
template name, and run `expand_values` once per repeat.  The fuels are
ample for every reachable call. -/
def parse (ev : EvalFn) (name : List Char) (data : List Char) (values : Ctx)
    (rep : Nat) (gs : GState) : Ctx × GState :=
  parseRep ev (values.length + 2) (data.length + 1) data rep
    (ctxSet values kN (.scal (.int 0))) { gs with templateName := name }

/-- The loop of `main` over the input templates: `parse` each in turn with
the shared `values` dict and module state (the global file index is never
reset between templates). -/
def runAll (ev : EvalFn) : List (List Char × List Char) → Nat → Ctx → GState → Ctx × GState
  | [], _, values, gs => (values, gs)
  | nd :: rest, rep, values, gs =>
    let r := parse ev nd.1 nd.2 values rep gs
    runAll ev rest rep r.1 r.2

/-! ### Scaffolding for the statements -/

/-- A stretch of template text containing neither bracket character. -/
def Clean (l : List Char) : Prop := ∀ c ∈ l, c ≠ '[' ∧ c ≠ ']'

instance (l : List Char) : Decidable (Clean l) := by
  unfold Clean; infer_instance

/-- A doubly-bracketed block around the given content. -/
def blockOf (cs : List Char) : List Char := '[' :: '[' :: (cs ++ [']', ']'])

/-- Emit a run of files in order: `make_file` once per text, threading the
context (and its `n` updates) and the module state. -/
def emitSeq : Ctx → GState → List (List Char) → Ctx × GState
  | values, gs, [] => (values, gs)
  | values, gs, t :: ts =>
    let r := make_file t values gs
    emitSeq r.1 r.2 ts

/-- An evaluation oracle that always raises. -/
def evRaise : EvalFn := fun _ _ => none

/-- Oracle for the two-block witness: `A` evaluates to the list
`[1, 10]`, `B` to `[5, 6, 7]`. -/
def evW1 : EvalFn := fun cmd _ =>
  if cmd = chars "A" then some (.vlist [.int 1, .int 10])
  else if cmd = chars "B" then some (.vlist [.int 5, .int 6, .int 7]) else none

/-- Oracle mapping `A` to the tuple `(1, 2)`. -/
def evTuple : EvalFn := fun cmd _ =>
  if cmd = chars "A" then some (.vtuple [.int 1, .int 2]) else none

/-- Oracle mapping `T` to the tuple `(1, 2)`. -/
def evTupleT : EvalFn := fun cmd _ =>
  if cmd = chars "T" then some (.vtuple [.int 1, .int 2]) else none

/-- Oracle for the context-threading scenario: `L` is the list `[1, 2]`;
`E` models the expression `99 if 'y' in dir() else 7` (observable presence
of `y` in the evaluation context); `y` looks the name up. -/
def evShared : EvalFn := fun cmd ctx =>
  if cmd = chars "L" then some (.vlist [.int 1, .int 2])
  else if cmd = chars "E" then
    some (.scal (.int (if (ctxGet ctx (chars "y")).isSome then 99 else 7)))
  else if cmd = chars "y" then ctxGet ctx (chars "y")
  else none

/-! ### Context lemmas -/

theorem ctxGet_ctxSet_self (c : Ctx) (k : List Char) (v : Val) :
    ctxGet (ctxSet c k v) k = some v := by
  induction c with
  | nil => simp [ctxSet, ctxGet]
  | cons kv rest ih =>
    by_cases h : kv.1 = k
    · simp [ctxSet, ctxGet, h]
    · simp [ctxSet, ctxGet, h, ih]

/-! ### Scanner lemmas: `get_block` over clean text and around one block -/

theorem gb_eof (cs : List Char) (h : Clean cs) :
    ∀ (pc : Char) (d : Int) (pre : List Char) (errs : List (List Char)),
    get_block_loop '[' ']' pc d false pre [] errs cs
      = (pre ++ (pc :: cs).dropLast, [], true, errs, []) := by
  induction cs with
  | nil => intro pc d pre errs; simp [get_block_loop]
  | cons c t ih =>
    intro pc d pre errs
    have hc := h c (by simp)
    have ht : Clean t := fun x hx => h x (by simp [hx])
    rw [get_block_loop]
    simp only [hc.1, hc.2, if_false, Bool.false_and, decide_eq_true_eq]
    simp [hc.1, hc.2, ih ht c d (pre ++ [pc]) errs, List.dropLast]

theorem get_block_eof (s : List Char) (h : Clean s) :
    get_block s '[' ']' = (s.dropLast, [], true, [], []) := by
  cases s with
  | nil => simp [get_block]
  | cons c t =>
    have hc := h c (by simp)
    have ht : Clean t := fun x hx => h x (by simp [hx])
    simp [get_block, hc.1, gb_eof t ht c 0 [] []]

theorem gb_clean (cs : List Char) (h : Clean cs) :
    ∀ (pc : Char), pc ≠ '[' → ∀ (pre : List Char) (errs : List (List Char)) (rest2 : List Char),
    get_block_loop '[' ']' pc 0 false pre [] errs (cs ++ '[' :: rest2)
      = get_block_loop '[' ']' '[' 1 false (pre ++ pc :: cs) [] errs rest2 := by
  induction cs with
  | nil =>
    intro pc hpc pre errs rest2
    simp [get_block_loop, hpc]
  | cons c t ih =>
    intro pc hpc pre errs rest2
    have hc := h c (by simp)
    have ht : Clean t := fun x hx => h x (by simp [hx])
    rw [List.cons_append, get_block_loop]
    simp [hc.1, hc.2, ih ht c hc.1 (pre ++ [pc]) errs rest2]

theorem gb_block_inner (cs : List Char) (h : Clean cs) :
    ∀ (pc : Char) (pre blk : List Char) (errs : List (List Char)) (rest : List Char),
    get_block_loop '[' ']' pc 2 true pre blk errs (cs ++ ']' :: ']' :: rest)
      = (pre, blk ++ pc :: (cs ++ [']', ']']), false, errs, rest) := by
  induction cs with
  | nil =>
    intro pc pre blk errs rest
    simp [get_block_loop]
  | cons c t ih =>
    intro pc pre blk errs rest
    have hc := h c (by simp)
    have ht : Clean t := fun x hx => h x (by simp [hx])
    rw [List.cons_append, get_block_loop]
    simp [hc.1, hc.2, ih ht c pre (blk ++ [pc]) errs rest]

theorem gb_open (cs : List Char) (h : Clean cs) (pre : List Char)
    (errs : List (List Char)) (rest : List Char) :
    get_block_loop '[' ']' '[' 1 false pre [] errs ('[' :: (cs ++ ']' :: ']' :: rest))
      = (pre, blockOf cs, false, errs, rest) := by
  have step1 : get_block_loop '[' ']' '[' 1 false pre [] errs ('[' :: (cs ++ ']' :: ']' :: rest))
      = get_block_loop '[' ']' '[' 2 true pre ['['] errs (cs ++ ']' :: ']' :: rest) := rfl
  rw [step1, gb_block_inner cs h '[' pre ['['] errs rest]
  simp [blockOf]

theorem get_block_block (s cs rest : List Char) (hs : Clean s) (hc : Clean cs) :
    get_block (s ++ blockOf cs ++ rest) '[' ']' = (s, blockOf cs, false, [], rest) := by
  have hshape : s ++ blockOf cs ++ rest = s ++ '[' :: '[' :: (cs ++ ']' :: ']' :: rest) := by
    simp [blockOf]
  rw [hshape]
  cases s with
  | nil =>
    show get_block_loop '[' ']' '[' 1 false [] [] [] ('[' :: (cs ++ ']' :: ']' :: rest))
      = ([], blockOf cs, false, [], rest)
    rw [gb_open cs hc [] [] rest]
  | cons a t =>
    have ha := hs a (by simp)
    have ht : Clean t := fun x hx => hs x (by simp [hx])
    show get_block_loop '[' ']' a (if a = '[' then 1 else 0) false [] [] []
        (t ++ '[' :: '[' :: (cs ++ ']' :: ']' :: rest)) = (a :: t, blockOf cs, false, [], rest)
    rw [if_neg ha.1]
    rw [gb_clean t ht a ha.1 [] [] ('[' :: (cs ++ ']' :: ']' :: rest))]
    rw [gb_open cs hc ([] ++ a :: t) [] rest]
    simp

theorem gb_inblock_eof (cs : List Char) (h : Clean cs) :
    ∀ (pc : Char) (d : Int) (pre blk : List Char) (errs : List (List Char)), blk ≠ [] →
    get_block_loop '[' ']' pc d true pre blk errs cs
      = (pre, [], true, errs ++ [eofMsg], []) := by
  induction cs with
  | nil =>
    intro pc d pre blk errs hblk
    simp [get_block_loop, hblk]
  | cons c t ih =>
    intro pc d pre blk errs hblk
    have hc := h c (by simp)
    have ht : Clean t := fun x hx => h x (by simp [hx])
    rw [get_block_loop]
    simp [hc.1, hc.2, ih ht c d pre (blk ++ [pc]) errs (by simp)]

theorem get_block_open_eof (s t : List Char) (hs : Clean s) (ht : Clean t) :
    get_block (s ++ '[' :: '[' :: t) '[' ']' = (s, [], true, [eofMsg], []) := by
  have hstep : ∀ pre errs, get_block_loop '[' ']' '[' 1 false pre [] errs ('[' :: t)
      = (pre, [], true, errs ++ [eofMsg], []) := by
    intro pre errs
    have step1 : get_block_loop '[' ']' '[' 1 false pre [] errs ('[' :: t)
        = get_block_loop '[' ']' '[' 2 true pre ['['] errs t := rfl
    rw [step1, gb_inblock_eof t ht '[' 2 pre ['['] errs (by simp)]
  cases s with
  | nil =>
    show get_block_loop '[' ']' '[' 1 false [] [] [] ('[' :: t) = ([], [], true, [eofMsg], [])
    rw [hstep [] []]
    simp
  | cons a u =>
    have ha := hs a (by simp)
    have hu : Clean u := fun x hx => hs x (by simp [hx])
    show get_block_loop '[' ']' a (if a = '[' then 1 else 0) false [] [] [] (u ++ '[' :: '[' :: t)
      = (a :: u, [], true, [eofMsg], [])
    rw [if_neg ha.1]
    rw [gb_clean u hu a ha.1 [] [] ('[' :: t)]
    rw [hstep ([] ++ a :: u) []]
    simp

/-! ### Evaluator lemmas -/

theorem partitionEq_none (l : List Char) (h : '=' ∉ l) : partitionEq l = none := by
  induction l with
  | nil => simp [partitionEq]
  | cons c t ih =>
    have hc : c ≠ '=' := fun hh => h (by simp [hh])
    have ht : '=' ∉ t := fun hh => h (by simp [hh])
    simp [partitionEq, hc, ih ht]

theorem try_assignment_noeq (cmd : List Char) (h : '=' ∉ cmd) :
    try_assignment cmd = ([], cmd) := by
  simp [try_assignment, partitionEq_none cmd h]

theorem partitionEq_append (a b : List Char) (h : '=' ∉ a) :
    partitionEq (a ++ '=' :: b) = some (a, b) := by
  induction a with
  | nil => simp [partitionEq]
  | cons c t ih =>
    have hc : c ≠ '=' := fun hh => h (by simp [hh])
    have ht : '=' ∉ t := fun hh => h (by simp [hh])
    simp [partitionEq, hc, ih ht]

theorem blockOf_cmd (cs : List Char) :
    (((blockOf cs).drop 2).dropLast).dropLast = cs := by
  have h2 : cs ++ [']', ']'] = (cs ++ [']']) ++ [']'] := by simp
  simp only [blockOf, List.drop_succ_cons, List.drop_zero, h2,
    List.dropLast_concat]

theorem popAttempt_list (vs : List Scal) (h : vs ≠ []) :
    popAttempt (.vlist vs) = some (vs.dropLast, vs.getLast h) := by
  simp [popAttempt, List.getLast?_eq_getLast vs h]

/-! ### Emission runs -/

theorem emitSeq_append (ts us : List (List Char)) : ∀ (c : Ctx) (g : GState),
    emitSeq c g (ts ++ us) = emitSeq (emitSeq c g ts).1 (emitSeq c g ts).2 us := by
  induction ts with
  | nil => intro c g; simp [emitSeq]
  | cons t ts ih => intro c g; simp [emitSeq, ih]

theorem emitSeq_single (c : Ctx) (g : GState) (t : List Char) :
    emitSeq c g [t] = make_file t c g := by
  simp [emitSeq]

theorem emitSeq_texts (ts : List (List Char)) : ∀ (c : Ctx) (g : GState),
    ((emitSeq c g ts).2).emitted.map (fun e => e.2.1)
      = g.emitted.map (fun e => e.2.1) ++ ts := by
  induction ts with
  | nil => intro c g; simp [emitSeq]
  | cons t ts ih =>
    intro c g
    simp [emitSeq, ih, make_file]

theorem bind_single {α β : Type} (l : List α) (f : α → β) :
    (l.flatMap fun b => [f b]) = l.map f := by
  induction l with
  | nil => simp
  | cons x t ih => simp [ih]

theorem length_bind_const {α β : Type} (l : List α) (F : α → List β) (k : Nat)
    (h : ∀ a ∈ l, (F a).length = k) : (l.flatMap F).length = l.length * k := by
  induction l with
  | nil => simp
  | cons x t ih =>
    have hx := h x (by simp)
    have ht : ∀ a ∈ t, (F a).length = k := fun a ha => h a (by simp [ha])
    simp [ih ht, hx, Nat.succ_mul, Nat.add_comm]

theorem foldl_emitSeq (F : Scal → List (List Char)) (step : Ctx × GState → Scal → Ctx × GState) :
    ∀ (l : List Scal), (∀ (c : Ctx) (g : GState) (v : Scal), v ∈ l → step (c, g) v = emitSeq c g (F v)) →
    ∀ (c : Ctx) (g : GState), l.foldl step (c, g) = emitSeq c g (l.flatMap F) := by
  intro l
  induction l with
  | nil => intro _ c g; simp [emitSeq]
  | cons v t ih =>
    intro hstep c g
    have hv := hstep c g v (by simp)
    have ht : ∀ (c : Ctx) (g : GState) (x : Scal), x ∈ t → step (c, g) x = emitSeq c g (F x) :=
      fun c g x hx => hstep c g x (by simp [hx])
    rw [List.foldl_cons, hv]
    rw [show emitSeq c g (F v) = ((emitSeq c g (F v)).1, (emitSeq c g (F v)).2) from rfl]
    rw [ih ht (emitSeq c g (F v)).1 (emitSeq c g (F v)).2]
    rw [List.flatMap_cons, emitSeq_append]


/-! ### `process` over canonical template shapes -/

theorem process_eof (ev : EvalFn) (s : List Char) (h : Clean s) (n : Nat)
    (values : Ctx) (text : List Char) (gs : GState) :
    process ev (n + 1) s values text gs = make_file (text ++ s.dropLast) values gs := by
  simp only [process]
  rw [show CODE_IN = '[' from rfl, show CODE_OUT = ']' from rfl]
  rw [get_block_eof s h]
  simp

theorem process_step (ev : EvalFn) (fuel : Nat) (s1 cs rest : List Char)
    (h1 : Clean s1) (hc : Clean cs) (values : Ctx) (text : List Char) (gs : GState) :
    process ev (fuel + 1) (s1 ++ blockOf cs ++ rest) values text gs
      = handle_result (fun g c t st => process ev fuel g c t st) rest (try_assignment cs).1
          (evaluate ev (try_assignment cs).2 values gs).1 (text ++ s1) values
          (evaluate ev (try_assignment cs).2 values gs).2 := by
  simp only [process]
  rw [show CODE_IN = '[' from rfl, show CODE_OUT = ']' from rfl]
  rw [get_block_block s1 cs rest h1 hc]
  simp only [Bool.false_eq_true, if_false, blockOf_cmd, List.append_nil]

theorem process_value_block (ev : EvalFn) (s1 cs s3 : List Char) (v : Val)
    (h1 : Clean s1) (hc : Clean cs) (h3 : Clean s3) (hne : '=' ∉ cs)
    (hev : ∀ c, ev cs c = some v) (n : Nat) (values : Ctx) (text : List Char) (gs : GState) :
    process ev (n + 2) (s1 ++ blockOf cs ++ s3) values text gs
      = emitSeq values gs
          (match popAttempt v with
           | none => [text ++ s1 ++ pyStr v ++ s3.dropLast]
           | some il => (il.1 ++ [il.2]).map (fun b => text ++ s1 ++ scalStr b ++ s3.dropLast)) := by
  rw [show n + 2 = (n + 1) + 1 from rfl]
  rw [process_step ev (n + 1) s1 cs s3 h1 hc values text gs]
  rw [try_assignment_noeq cs hne]
  simp only [evaluate, hev values]
  rcases hpa : popAttempt v with _ | il
  · simp only [handle_result, hpa]
    simp only [ne_eq, not_true_eq_false, if_false, reduceIte]
    rw [process_eof ev s3 h3 n]
    simp [emitSeq, List.append_assoc]
  · simp only [handle_result, hpa]
    simp only [ne_eq, not_true_eq_false, if_false, reduceIte]
    have hstep : ∀ (c : Ctx) (g : GState) (b : Scal), b ∈ il.1 →
        process ev (n + 1) s3 c ((text ++ s1) ++ scalStr b) g
          = emitSeq c g [text ++ s1 ++ scalStr b ++ s3.dropLast] := by
      intro c g b _
      rw [process_eof ev s3 h3 n, emitSeq_single]
    rw [foldl_emitSeq (fun b => [text ++ s1 ++ scalStr b ++ s3.dropLast]) _ il.1
      (fun c g b hb => hstep c g b hb) values gs]
    rw [process_eof ev s3 h3 n]
    rw [bind_single il.1 (fun b => text ++ s1 ++ scalStr b ++ s3.dropLast)]
    have hm : make_file ((text ++ s1) ++ scalStr il.2 ++ s3.dropLast)
          (emitSeq values gs (il.1.map fun b => text ++ s1 ++ scalStr b ++ s3.dropLast)).1
          (emitSeq values gs (il.1.map fun b => text ++ s1 ++ scalStr b ++ s3.dropLast)).2
        = emitSeq values gs ((il.1.map fun b => text ++ s1 ++ scalStr b ++ s3.dropLast)
            ++ [text ++ s1 ++ scalStr il.2 ++ s3.dropLast]) := by
      rw [emitSeq_append]
      simp [emitSeq, List.append_assoc]
    rw [hm]
    congr 1
    simp

theorem process_fail_block (ev : EvalFn) (s1 cs s3 : List Char)
    (h1 : Clean s1) (hc : Clean cs) (h3 : Clean s3) (hne : '=' ∉ cs)
    (hev : ∀ c, ev cs c = none) (n : Nat) (values : Ctx) (text : List Char) (gs : GState) :
    process ev (n + 2) (s1 ++ blockOf cs ++ s3) values text gs
      = make_file (text ++ s1 ++ cs ++ s3.dropLast) values
          { gs with errLog := gs.errLog ++ [errLine1 gs.templateName, errLine2 cs] } := by
  rw [show n + 2 = (n + 1) + 1 from rfl]
  rw [process_step ev (n + 1) s1 cs s3 h1 hc values text gs]
  rw [try_assignment_noeq cs hne]
  simp only [evaluate, hev values]
  simp only [handle_result, popAttempt]
  simp only [ne_eq, not_true_eq_false, if_false, reduceIte]
  rw [process_eof ev s3 h3 n]
  simp [pyStr, scalStr, List.append_assoc]

theorem process_two_blocks (ev : EvalFn) (s1 ca s2 cb s3 : List Char)
    (vs1 vs2 : List Scal)
    (h1 : Clean s1) (hca : Clean ca) (h2 : Clean s2) (hcb : Clean cb) (h3 : Clean s3)
    (hnea : '=' ∉ ca) (hneb : '=' ∉ cb)
    (hA : ∀ c, ev ca c = some (.vlist vs1)) (hB : ∀ c, ev cb c = some (.vlist vs2))
    (hv1 : vs1 ≠ []) (hv2 : vs2 ≠ []) (n : Nat) (values : Ctx) (text : List Char) (gs : GState) :
    process ev (n + 3) (s1 ++ blockOf ca ++ (s2 ++ blockOf cb ++ s3)) values text gs
      = emitSeq values gs
          (vs1.flatMap fun a => vs2.map fun b =>
            text ++ s1 ++ scalStr a ++ s2 ++ scalStr b ++ s3.dropLast) := by
  have inner : ∀ (c : Ctx) (g : GState) (ot : List Char),
      process ev (n + 2) (s2 ++ blockOf cb ++ s3) c ot g
        = emitSeq c g (vs2.map fun b => ot ++ s2 ++ scalStr b ++ s3.dropLast) := by
    intro c g ot
    rw [process_value_block ev s2 cb s3 (.vlist vs2) h2 hcb h3 hneb hB n c ot g]
    rw [popAttempt_list vs2 hv2]
    simp only [List.dropLast_append_getLast hv2]
  rw [show n + 3 = (n + 2) + 1 from rfl]
  rw [process_step ev (n + 2) s1 ca (s2 ++ blockOf cb ++ s3) h1 hca values text gs]
  rw [try_assignment_noeq ca hnea]
  simp only [evaluate, hA values]
  simp only [handle_result]
  rw [popAttempt_list vs1 hv1]
  simp only [ne_eq, not_true_eq_false, if_false, reduceIte]
  have hstep : ∀ (c : Ctx) (g : GState) (a : Scal), a ∈ vs1.dropLast →
      process ev (n + 2) (s2 ++ blockOf cb ++ s3) c ((text ++ s1) ++ scalStr a) g
        = emitSeq c g (vs2.map fun b => text ++ s1 ++ scalStr a ++ s2 ++ scalStr b ++ s3.dropLast) := by
    intro c g a _
    rw [inner c g ((text ++ s1) ++ scalStr a)]
  rw [foldl_emitSeq (fun a => vs2.map fun b =>
      text ++ s1 ++ scalStr a ++ s2 ++ scalStr b ++ s3.dropLast) _ vs1.dropLast
    (fun c g a ha => hstep c g a ha) values gs]
  rw [inner _ _ ((text ++ s1) ++ scalStr (vs1.getLast hv1))]
  rw [← emitSeq_append]
  congr 1
  rw [show (vs1.flatMap fun a => vs2.map fun b =>
      text ++ s1 ++ scalStr a ++ s2 ++ scalStr b ++ s3.dropLast)
    = ((vs1.dropLast ++ [vs1.getLast hv1]).flatMap fun a => vs2.map fun b =>
      text ++ s1 ++ scalStr a ++ s2 ++ scalStr b ++ s3.dropLast) from by
    rw [List.dropLast_append_getLast hv1]]
  rw [List.flatMap_append]
  simp [List.append_assoc]



/-! ### `pop_sequence` / `expand_values` lemmas -/

theorem pop_sequence_none_iff (values : Ctx) :
    (pop_sequence values).1 = none ↔ ∀ kv ∈ values, seqLen kv.2 = false := by
  induction values with
  | nil => simp [pop_sequence]
  | cons kv rest ih =>
    by_cases h : seqLen kv.2
    · simp [pop_sequence, h]
    · simp [pop_sequence, h, ih]

theorem expand_values_scalar (ev : EvalFn) (fuel pfuel : Nat) (f : List Char)
    (values : Ctx) (text : List Char) (gs : GState)
    (h : (pop_sequence values).1 = none) :
    expand_values ev (fuel + 1) pfuel f values text gs
      = process ev pfuel f values text gs := by
  simp only [expand_values]
  rcases hp : pop_sequence values with ⟨o, c1⟩
  rw [hp] at h
  simp only at h
  subst h
  simp

theorem expand_values_restore (ev : EvalFn) (fuel pfuel : Nat) (f : List Char)
    (values : Ctx) (text : List Char) (gs : GState) (k : List Char) (vs : Val) (ctx1 : Ctx)
    (hp : pop_sequence values = (some (k, vs), ctx1)) :
    ctxGet ((expand_values ev (fuel + 1) pfuel f values text gs).1) k = some vs := by
  simp only [expand_values]
  rw [hp]
  exact ctxGet_ctxSet_self _ k vs

/-! ### The global file numbering invariant -/

/-- The emitted files are numbered consecutively from zero by the global
`file_index`, which always equals the number of files made so far. -/
def goodNum (gs : GState) : Prop :=
  gs.fileIndex = gs.emitted.length ∧
    ∀ (j : Nat) (h : j < gs.emitted.length), (gs.emitted.get ⟨j, h⟩).1 = j

theorem goodNum_make_file (t : List Char) (values : Ctx) (gs : GState)
    (h : goodNum gs) : goodNum (make_file t values gs).2 := by
  obtain ⟨h1, h2⟩ := h
  constructor
  · simp [make_file, h1]
  · intro j hj
    have hj2 : j < gs.emitted.length + 1 := by
      simpa [make_file] using hj
    show ((gs.emitted ++ [(gs.fileIndex, t, values)]).get ⟨j, _⟩).1 = j
    by_cases hlt : j < gs.emitted.length
    · rw [List.get_eq_getElem, List.getElem_append_left hlt]
      have h3 := h2 j hlt
      rw [List.get_eq_getElem] at h3
      exact h3
    · have hje : j = gs.emitted.length := by omega
      subst hje
      rw [List.get_eq_getElem, List.getElem_concat_length _ _ _ rfl]
      exact h1

theorem goodNum_foldl {α : Type} (step : Ctx × GState → α → Ctx × GState)
    (hstep : ∀ (p : Ctx × GState) (v : α), goodNum p.2 → goodNum (step p v).2) :
    ∀ (l : List α) (p : Ctx × GState), goodNum p.2 → goodNum (l.foldl step p).2 := by
  intro l
  induction l with
  | nil => intro p h; simpa using h
  | cons v t ih => intro p h; exact ih (step p v) (hstep p v h)

theorem goodNum_handle (cont : List Char → Ctx → List Char → GState → Ctx × GState)
    (hcont : ∀ f c t g, goodNum g → goodNum (cont f c t g).2)
    (f2 key : List Char) (vals : Val) (output : List Char) (values : Ctx) (gs : GState)
    (h : goodNum gs) : goodNum (handle_result cont f2 key vals output values gs).2 := by
  rcases hpa : popAttempt vals with _ | il
  · simp only [handle_result, hpa]
    split
    · exact hcont _ _ _ _ h
    · exact hcont _ _ _ _ h
  · simp only [handle_result, hpa]
    by_cases hk : key = []
    · simp only [hk, ne_eq, not_true_eq_false, if_false, reduceIte]
      exact hcont _ _ _ _ (goodNum_foldl _ (fun p v hp => hcont _ _ _ _ hp) il.1 (values, gs) h)
    · simp only [ne_eq, hk, not_false_eq_true, if_true, reduceIte]
      exact hcont _ _ _ _ (goodNum_foldl _ (fun p v hp => hcont _ _ _ _ hp) il.1 (values, gs) h)

theorem goodNum_evaluate (ev : EvalFn) (cmd : List Char) (values : Ctx) (gs : GState)
    (h : goodNum gs) : goodNum (evaluate ev cmd values gs).2 := by
  rcases hev : ev cmd values with _ | v
  · simp only [evaluate, hev]
    exact h
  · simp only [evaluate, hev]
    exact h

theorem goodNum_process (ev : EvalFn) :
    ∀ (fuel : Nat) (f : List Char) (values : Ctx) (text : List Char) (gs : GState),
    goodNum gs → goodNum (process ev fuel f values text gs).2 := by
  intro fuel
  induction fuel with
  | zero => intro f values text gs h; exact h
  | succ fuel ih =>
    intro f values text gs h
    rcases hgb : get_block f CODE_IN CODE_OUT with ⟨pre, code, eof, errs, f2⟩
    simp only [process, hgb]
    cases eof
    · simp only [Bool.false_eq_true, if_false, reduceIte]
      exact goodNum_handle _ (fun f c t g hg => ih f c t g hg) _ _ _ _ _ _
        (goodNum_evaluate ev _ values _ h)
    · simp only [if_true, reduceIte]
      exact goodNum_make_file _ _ _ h

theorem goodNum_expand (ev : EvalFn) :
    ∀ (fuel pfuel : Nat) (f : List Char) (values : Ctx) (text : List Char) (gs : GState),
    goodNum gs → goodNum (expand_values ev fuel pfuel f values text gs).2 := by
  intro fuel
  induction fuel with
  | zero => intro pfuel f values text gs h; exact h
  | succ fuel ih =>
    intro pfuel f values text gs h
    simp only [expand_values]
    rcases hp : pop_sequence values with ⟨o, c1⟩
    rcases o with _ | kv
    · exact goodNum_process ev pfuel f values text gs h
    · exact goodNum_foldl _ (fun p v hp => ih pfuel f _ text p.2 hp) (elemsOf kv.2) (c1, gs) h

theorem goodNum_parseRep (ev : EvalFn) (efuel pfuel : Nat) (data : List Char) :
    ∀ (k : Nat) (values : Ctx) (gs : GState),
    goodNum gs → goodNum (parseRep ev efuel pfuel data k values gs).2 := by
  intro k
  induction k with
  | zero => intro values gs h; exact h
  | succ k ih =>
    intro values gs h
    simp only [parseRep]
    exact ih _ _ (goodNum_expand ev efuel pfuel data values [] gs h)

theorem goodNum_parse (ev : EvalFn) (name data : List Char) (values : Ctx)
    (rep : Nat) (gs : GState) (h : goodNum gs) :
    goodNum (parse ev name data values rep gs).2 := by
  exact goodNum_parseRep ev _ _ data rep _ _ h

theorem goodNum_runAll (ev : EvalFn) :
    ∀ (ts : List (List Char × List Char)) (rep : Nat) (values : Ctx) (gs : GState),
    goodNum gs → goodNum (runAll ev ts rep values gs).2 := by
  intro ts
  induction ts with
  | nil => intro rep values gs h; exact h
  | cons nd rest ih =>
    intro rep values gs h
    simp only [runAll]
    exact ih rep _ _ (goodNum_parse ev nd.1 nd.2 values rep gs h)

theorem goodNum_init : goodNum initGS := by
  constructor
  · simp [initGS]
  · intro j h
    simp [initGS] at h



/-! ### The claims -/

/-- C1: for a template holding two independent multi-valued (list-valued)
blocks with bracket-free surrounding literal text, the branches are
emitted in strict lexicographic order of the cartesian product of the two
sequences — first block varying slower, second faster, values in original
sequence order — and exactly `k1 * k2` files are generated. -/
theorem c1_cartesian_lex_order (ev : EvalFn) (s1 ca s2 cb s3 : List Char)
    (vs1 vs2 : List Scal)
    (h1 : Clean s1) (hca : Clean ca) (h2 : Clean s2) (hcb : Clean cb) (h3 : Clean s3)
    (hnea : '=' ∉ ca) (hneb : '=' ∉ cb)
    (hA : ∀ c, ev ca c = some (.vlist vs1)) (hB : ∀ c, ev cb c = some (.vlist vs2))
    (hv1 : vs1 ≠ []) (hv2 : vs2 ≠ []) (values : Ctx) (n : Nat) :
    ((process ev (n + 3) (s1 ++ blockOf ca ++ (s2 ++ blockOf cb ++ s3)) values [] initGS).2).emitted.map
        (fun e => e.2.1)
      = vs1.flatMap (fun a => vs2.map fun b =>
          s1 ++ scalStr a ++ s2 ++ scalStr b ++ s3.dropLast)
    ∧ ((process ev (n + 3) (s1 ++ blockOf ca ++ (s2 ++ blockOf cb ++ s3)) values [] initGS).2).emitted.length
      = vs1.length * vs2.length := by
  have h := process_two_blocks ev s1 ca s2 cb s3 vs1 vs2 h1 hca h2 hcb h3 hnea hneb
    hA hB hv1 hv2 n values [] initGS
  have htext : ((process ev (n + 3) (s1 ++ blockOf ca ++ (s2 ++ blockOf cb ++ s3)) values [] initGS).2).emitted.map
      (fun e => e.2.1)
      = vs1.flatMap (fun a => vs2.map fun b =>
          s1 ++ scalStr a ++ s2 ++ scalStr b ++ s3.dropLast) := by
    rw [h, emitSeq_texts]
    simp [initGS]
  refine ⟨htext, ?_⟩
  have hl := congrArg List.length htext
  rw [List.length_map] at hl
  rw [hl]
  exact length_bind_const vs1 _ vs2.length (fun a _ => List.length_map _ _)

/-- Witness for C1 at the template `r=[[A]] s=[[B]]\n.` with `A ↦ [1, 10]`
and `B ↦ [5, 6, 7]`: six files in product order. -/
theorem c1_witness :
    ((process evW1 3 (chars "r=" ++ blockOf (chars "A") ++ (chars " s=" ++ blockOf (chars "B") ++ chars "\n.")) [] [] initGS).2).emitted.map
        (fun e => e.2.1)
      = ([Scal.int 1, Scal.int 10].flatMap (fun a => [Scal.int 5, Scal.int 6, Scal.int 7].map fun b =>
          chars "r=" ++ scalStr a ++ chars " s=" ++ scalStr b ++ (chars "\n.").dropLast))
    ∧ ((process evW1 3 (chars "r=" ++ blockOf (chars "A") ++ (chars " s=" ++ blockOf (chars "B") ++ chars "\n.")) [] [] initGS).2).emitted.length
      = [Scal.int 1, Scal.int 10].length * [Scal.int 5, Scal.int 6, Scal.int 7].length :=
  c1_cartesian_lex_order evW1 (chars "r=") (chars "A") (chars " s=") (chars "B") (chars "\n.")
    [Scal.int 1, Scal.int 10] [Scal.int 5, Scal.int 6, Scal.int 7]
    (by decide) (by decide) (by decide) (by decide) (by decide) (by decide) (by decide)
    (fun c => rfl) (fun c => rfl) (by decide) (by decide) [] 0

/-- C2: the claim says a blockless template is copied byte-identically;
the source documentation promises the same ("any accompanying text in the
template file is copied verbatim"), but `get_block` breaks out of its loop
when `read` returns empty before appending the previously read character,
so the template's final character is dropped: `hello\n` yields one file
holding `hello`. -/
theorem c2_last_char_dropped :
    ((process evRaise 1 (chars "hello\n") [] [] initGS).2).emitted.map (fun e => e.2.1)
      = [chars "hello"]
    ∧ chars "hello" ≠ chars "hello\n" := by decide

/-- C3 counterexample: a tuple supports ordered indexed length access and
is not a string (`seqLen` holds), yet a block evaluating to `(1, 2)` does
not fork: `vals.pop()` raises `AttributeError` on a tuple, so exactly one
file is produced with the tuple's string form substituted, not two. -/
theorem c3_tuple_does_not_fork :
    seqLen (.vtuple [.int 1, .int 2]) = true
    ∧ ((process evTuple 2 (chars "[[A]]!") [] [] initGS).2).emitted.map (fun e => e.2.1)
        = [chars "(1, 2)"]
    ∧ ((process evTuple 2 (chars "[[A]]!") [] [] initGS).2).emitted.length ≠ 2 := by decide

/-- C3 amended: `process` treats a block result as a sequence of
candidate values exactly when `vals.pop()` succeeds — that is, when the
result is a nonempty list — forking once per element in order; every
other result (scalars, strings, tuples, ranges, empty lists) is handled
as a single value whose string form is substituted. -/
theorem c3_fork_iff_nonempty_list (ev : EvalFn) (s1 cs s3 : List Char) (v : Val)
    (h1 : Clean s1) (hc : Clean cs) (h3 : Clean s3) (hne : '=' ∉ cs)
    (hev : ∀ c, ev cs c = some v) (n : Nat) (values : Ctx) (text : List Char) (gs : GState) :
    process ev (n + 2) (s1 ++ blockOf cs ++ s3) values text gs
      = emitSeq values gs
          (match popAttempt v with
           | none => [text ++ s1 ++ pyStr v ++ s3.dropLast]
           | some il => (il.1 ++ [il.2]).map (fun b => text ++ s1 ++ scalStr b ++ s3.dropLast)) :=
  process_value_block ev s1 cs s3 v h1 hc h3 hne hev n values text gs

/-- Witness for C3 amended at the tuple block `[[A]]!`: `popAttempt`
fails, so one file holding `(1, 2)` is emitted. -/
theorem c3_witness :
    process evTuple 2 ([] ++ blockOf (chars "A") ++ chars "!") [] [] initGS
      = emitSeq [] initGS
          (match popAttempt (.vtuple [.int 1, .int 2]) with
           | none => [[] ++ [] ++ pyStr (.vtuple [.int 1, .int 2]) ++ (chars "!").dropLast]
           | some il => (il.1 ++ [il.2]).map (fun b => [] ++ [] ++ scalStr b ++ (chars "!").dropLast)) :=
  c3_fork_iff_nonempty_list evTuple [] (chars "A") (chars "!") (.vtuple [.int 1, .int 2])
    (by decide) (by decide) (by decide) (by decide) (fun c => rfl) 0 [] [] initGS

/-- C4 counterexample: running `parse` on the template `[[x=T]]z` where
`T` evaluates to the tuple `(1, 2)` emits its single file while the
context still holds the sequence-valued (non-string, length-supporting)
entry `x = (1, 2)` — the tuple is never popped because `process` only
forks on lists, so the claimed all-scalar invariant at `make_file` fails. -/
theorem c4_sequence_entry_at_emission :
    ((parse evTupleT (chars "t.tpl") (chars "[[x=T]]z") [] 1 initGS).2).emitted
      = [(0, [], [(kN, .scal (.int 0)), (chars "x", .vtuple [.int 1, .int 2])])]
    ∧ seqLen (.vtuple [.int 1, .int 2]) = true := by decide

/-- C4 amended: the all-scalar guarantee holds at the hand-off from
`expand_values` to `process`, not at `make_file`: `pop_sequence` finds no
entry exactly when every context entry is scalar, and `expand_values`
invokes `process` precisely in that branch.  Blocks evaluated later by
`process` may still bind non-list sequences (tuples, ranges, empty
lists), which reach `make_file` unscalarized. -/
theorem c4_scalar_context_at_expansion_end :
    (∀ values : Ctx, (pop_sequence values).1 = none ↔ ∀ kv ∈ values, seqLen kv.2 = false)
    ∧ (∀ (ev : EvalFn) (fuel pfuel : Nat) (f : List Char) (values : Ctx)
        (text : List Char) (gs : GState), (pop_sequence values).1 = none →
        expand_values ev (fuel + 1) pfuel f values text gs
          = process ev pfuel f values text gs) :=
  ⟨pop_sequence_none_iff, expand_values_scalar⟩

/-- Witness for C4 amended: a context holding only the scalar `q = 3` is
passed through unchanged to `process`. -/
theorem c4_witness :
    expand_values evRaise 1 1 (chars "ab") [(chars "q", .scal (.int 3))] [] initGS
      = process evRaise 1 (chars "ab") [(chars "q", .scal (.int 3))] [] initGS :=
  c4_scalar_context_at_expansion_end.2 evRaise 0 1 (chars "ab")
    [(chars "q", .scal (.int 3))] [] initGS (by decide)

/-- C5 counterexample: on the malformed template `val=[[ 5 ]` (block open
at end of stream) the scanner's message goes to the accessory output
stream `out` (devnull unless `+` is given) and carries no template name —
the error stream receives nothing, although the template name is set;
processing continues and still emits one file. -/
theorem c5_error_not_on_error_stream :
    ((process evRaise 1 (chars "val=[[ 5 ]") [] []
        { initGS with templateName := chars "config.cym.tpl" }).2).errLog = []
    ∧ ((process evRaise 1 (chars "val=[[ 5 ]") [] []
        { initGS with templateName := chars "config.cym.tpl" }).2).outLog = [eofMsg]
    ∧ ((process evRaise 1 (chars "val=[[ 5 ]") [] []
        { initGS with templateName := chars "config.cym.tpl" }).2).emitted.length = 1
    ∧ ¬ (chars "config.cym.tpl" <:+: eofMsg) := by decide

/-- C5 amended: a block left open at end-of-stream is reported as a fixed
message (no template name) on the accessory output stream, and the branch
still completes: the literal text read before the block is emitted as a
file. -/
theorem c5_open_block_reported_accessory (ev : EvalFn) (s t : List Char)
    (hs : Clean s) (ht : Clean t) (n : Nat) (values : Ctx) (text : List Char) (gs : GState) :
    process ev (n + 1) (s ++ '[' :: '[' :: t) values text gs
      = make_file (text ++ s) values { gs with outLog := gs.outLog ++ [eofMsg] } := by
  simp only [process]
  rw [show CODE_IN = '[' from rfl, show CODE_OUT = ']' from rfl]
  rw [get_block_open_eof s t hs ht]
  simp

/-- Witness for C5 amended at `ab[[cd`: the message is recorded on the
accessory stream and the file `ab` (final char dropped at EOF) is made. -/
theorem c5_witness :
    process evRaise 1 (chars "ab" ++ '[' :: '[' :: chars "cd") [] [] initGS
      = make_file ([] ++ chars "ab") [] { initGS with outLog := initGS.outLog ++ [eofMsg] } :=
  c5_open_block_reported_accessory evRaise (chars "ab") (chars "cd")
    (by decide) (by decide) 0 [] [] initGS

/-- C6: when `eval` raises, `evaluate` reports two lines on the error
stream — one naming the template, one quoting the expression text — and
returns the unevaluated expression string itself; inside `process` the
failed block therefore degrades to its literal text substituted in place,
the branch still emits its file, and nothing else is disturbed. -/
theorem c6_evaluation_failure_nonfatal :
    (∀ (ev : EvalFn) (cmd : List Char) (values : Ctx) (gs : GState), ev cmd values = none →
      evaluate ev cmd values gs
        = (.scal (.sstr cmd),
           { gs with errLog := gs.errLog ++ [errLine1 gs.templateName, errLine2 cmd] }))
    ∧ (∀ (ev : EvalFn) (s1 cs s3 : List Char) (n : Nat) (values : Ctx) (text : List Char)
        (gs : GState), Clean s1 → Clean cs → Clean s3 → '=' ∉ cs → (∀ c, ev cs c = none) →
        process ev (n + 2) (s1 ++ blockOf cs ++ s3) values text gs
          = make_file (text ++ s1 ++ cs ++ s3.dropLast) values
              { gs with errLog := gs.errLog ++ [errLine1 gs.templateName, errLine2 cs] }) := by
  constructor
  · intro ev cmd values gs h
    simp [evaluate, h]
  · intro ev s1 cs s3 n values text gs h1 hc h3 hne hev
    exact process_fail_block ev s1 cs s3 h1 hc h3 hne hev n values text gs

/-- Witness for C6: a raising evaluation of `x` returns the literal
string `x` and appends the two report lines. -/
theorem c6_witness :
    evaluate evRaise (chars "x") [] initGS
      = (.scal (.sstr (chars "x")),
         { initGS with errLog := initGS.errLog ++ [errLine1 initGS.templateName, errLine2 (chars "x")] }) :=
  c6_evaluation_failure_nonfatal.1 evRaise (chars "x") [] initGS rfl

/-- C7 counterexample: the code has no "exactly one `=`" check —
`x == 5` is split at the first `=` into the target `x` and the expression
`= 5`, so it is treated as an assignment, contrary to the claim. -/
theorem c7_double_eq_treated_as_assignment :
    try_assignment (chars "x == 5") = (chars "x", chars "= 5")
    ∧ (chars "x") ≠ ([] : List Char) := by decide

/-- C7 amended: content is split at the first `=`; it is an assignment
(left side stripped as target, right side stripped as expression) exactly
when both sides of that first split are non-empty — the right side may
itself start with further `=` characters; content without `=` is all
expression. -/
theorem c7_first_eq_split :
    (∀ a b : List Char, '=' ∉ a →
      try_assignment (a ++ '=' :: b)
        = if a ≠ [] ∧ b ≠ [] then (strip a, strip b) else ([], a ++ '=' :: b))
    ∧ (∀ cmd : List Char, '=' ∉ cmd → try_assignment cmd = ([], cmd)) := by
  constructor
  · intro a b h
    simp [try_assignment, partitionEq_append a b h]
  · exact try_assignment_noeq

/-- Witness for C7 amended at `x = 5`. -/
theorem c7_witness :
    try_assignment (chars "x " ++ '=' :: chars " 5")
      = if chars "x " ≠ [] ∧ chars " 5" ≠ [] then (strip (chars "x "), strip (chars " 5"))
        else ([], chars "x " ++ '=' :: chars " 5") :=
  c7_first_eq_split.1 (chars "x ") (chars " 5") (by decide)

/-- C8 counterexample: in `[[x=L]][[y=E]]o=[[y]].` with `L = [1, 2]` and
`E` observing whether `y` is already bound, the completed sub-branch for
`x = 1` binds `y = 7`, and the sibling tail branch for `x = 2` then
observes that binding (evaluating `E` to `99`), producing `o=99` instead
of a second `o=7`: `process` threads one mutated context through the
fork loop and restores nothing. -/
theorem c8_sibling_observes_subbranch_binding :
    ((process evShared 6 (chars "[[x=L]][[y=E]]o=[[y]].") [] [] initGS).2).emitted.map
        (fun e => e.2.1)
      = [chars "o=7", chars "o=99"]
    ∧ chars "o=99" ≠ chars "o=7" := by decide

/-- C8 amended: the save/restore discipline exists only in
`expand_values`, and only for the entry it popped: after the loop over
the entry's values, the full multi-value is written back, so the caller
sees the popped key bound to its original sequence again. -/
theorem c8_expand_values_restores_popped_entry (ev : EvalFn) (fuel pfuel : Nat)
    (f : List Char) (values : Ctx) (text : List Char) (gs : GState)
    (k : List Char) (vs : Val) (ctx1 : Ctx)
    (hp : pop_sequence values = (some (k, vs), ctx1)) :
    ctxGet ((expand_values ev (fuel + 1) pfuel f values text gs).1) k = some vs :=
  expand_values_restore ev fuel pfuel f values text gs k vs ctx1 hp

/-- Witness for C8 amended: the seed entry `x = [1]` is restored after
expansion. -/
theorem c8_witness :
    ctxGet ((expand_values evRaise 1 1 (chars "a")
        [(chars "x", .vlist [.int 1])] [] initGS).1) (chars "x")
      = some (.vlist [.int 1]) :=
  c8_expand_values_restores_popped_entry evRaise 0 1 (chars "a")
    [(chars "x", .vlist [.int 1])] [] initGS (chars "x") (.vlist [.int 1]) [] (by decide)

/-- C9: a block result that is the one-element list `[v]` behaves exactly
like the scalar `v`: `pop` leaves nothing to fork over, so the single
remaining value is bound (context assignment or text substitution)
identically to the scalar case. -/
theorem c9_singleton_list_equals_scalar
    (cont : List Char → Ctx → List Char → GState → Ctx × GState)
    (f2 key : List Char) (s : Scal) (output : List Char) (values : Ctx) (gs : GState) :
    handle_result cont f2 key (.vlist [s]) output values gs
      = handle_result cont f2 key (.scal s) output values gs := by
  simp [handle_result, popAttempt, pyStr]

/-- C10: `make_file` leaves `values['n']` equal to the post-increment
global file index, and over a whole run (several templates, several
repeats) the emitted files are numbered consecutively from zero by the
never-reset global index — `parse` re-initializes the context entry `n`
to `0` per template, but the global numbering continues. -/
theorem c10_global_index_and_n :
    (∀ (text : List Char) (values : Ctx) (gs : GState),
      ctxGet ((make_file text values gs).1) kN = some (.scal (.int ((gs.fileIndex : Int) + 1)))
      ∧ ((make_file text values gs).2).fileIndex = gs.fileIndex + 1)
    ∧ (∀ (ev : EvalFn) (ts : List (List Char × List Char)) (rep : Nat) (values : Ctx)
        (j : Nat) (h : j < ((runAll ev ts rep values initGS).2).emitted.length),
        (((runAll ev ts rep values initGS).2).emitted.get ⟨j, h⟩).1 = j) := by
  constructor
  · intro text values gs
    exact ⟨ctxGet_ctxSet_self values kN _, rfl⟩
  · intro ev ts rep values j h
    exact (goodNum_runAll ev ts rep values initGS goodNum_init).2 j h

/-- Witness for C10: a one-template run emits its first file with global
index 0. -/
theorem c10_witness :
    (((runAll evRaise [(chars "t", chars "ab")] 1 [] initGS).2).emitted.get ⟨0, by decide⟩).1 = 0 :=
  c10_global_index_and_n.2 evRaise [(chars "t", chars "ab")] 1 [] 0 (by decide)


end Preconfig
